import Mathlib

/-!
Shallow embedding of the pyaward repository's matching and scraping core.

Strings are modelled as `List Char`.  Python's regex character classes
`\w` and `\s` and `str.lower` are modelled on their ASCII fragment (all
inputs exercised by the specification are ASCII).  Thresholds and the
Jaccard similarity are modelled as exact rationals.
-/

namespace PyAward

/-- Python regex `\w` (ASCII fragment): letters, digits and underscore. -/
def isWordChar (c : Char) : Bool :=
  decide ((48 ≤ c.toNat ∧ c.toNat ≤ 57) ∨ (65 ≤ c.toNat ∧ c.toNat ≤ 90) ∨
    (97 ≤ c.toNat ∧ c.toNat ≤ 122) ∨ c.toNat = 95)

/-- Python regex `\s`: space, tab, newline, carriage return, vertical tab, form feed. -/
def isSpaceChar (c : Char) : Bool :=
  decide (c.toNat = 32 ∨ c.toNat = 9 ∨ c.toNat = 10 ∨ c.toNat = 13 ∨
    c.toNat = 11 ∨ c.toNat = 12)

/-- Python `str.lower` on one character (ASCII fragment). -/
def pyLower (c : Char) : Char :=
  if 65 ≤ c.toNat ∧ c.toNat ≤ 90 then Char.ofNat (c.toNat + 32) else c

/-- Python substring test `sub in hay` on character lists. -/
def isSubstring (sub hay : List Char) : Bool :=
  sub.isPrefixOf hay ||
    match hay with
    | [] => false
    | _ :: t => isSubstring sub t

/-- Python `href.startswith('#')`. -/
def startsWithHash (href : List Char) : Bool :=
  match href with
  | '#' :: _ => true
  | _ => false

/-- Python `s.split()`: split on whitespace runs, dropping empty pieces.
The accumulator carries the current token, reversed. -/
def pySplitGo (cur : List Char) : List Char → List (List Char)
  | [] => if cur = [] then [] else [cur.reverse]
  | c :: cs =>
    if isSpaceChar c then
      if cur = [] then pySplitGo [] cs else cur.reverse :: pySplitGo [] cs
    else pySplitGo (c :: cur) cs

def pySplit (s : List Char) : List (List Char) := pySplitGo [] s

/-- Python `' '.join(tokens)`. -/
def pyJoin : List (List Char) → List Char
  | [] => []
  | [t] => t
  | t :: rest => t ++ ' ' :: pyJoin rest

/-- Python `s.strip()`: drop whitespace from both ends. -/
def pyStrip (s : List Char) : List Char :=
  ((s.dropWhile isSpaceChar).reverse.dropWhile isSpaceChar).reverse

/-- The article words removed by `DataMatcher._normalize_title`. -/
def isArticle (w : List Char) : Bool :=
  w = "the".toList || w = "a".toList || w = "an".toList

/-- Emit one maximal word-character run, dropping it when it is an article. -/
def emitRun (run : List Char) : List Char :=
  if isArticle run then [] else run

/-- Scanner for `re.sub(r'\b(the|a|an)\b', '', s)`: a match of this pattern
is exactly a maximal run of `\w` characters equal to one of the articles.
The accumulator carries the current run, reversed. -/
def removeArticlesGo (run : List Char) : List Char → List Char
  | [] => emitRun run.reverse
  | c :: cs =>
    if isWordChar c then removeArticlesGo (c :: run) cs
    else emitRun run.reverse ++ c :: removeArticlesGo [] cs

def removeArticles (s : List Char) : List Char := removeArticlesGo [] s

/-- Characters kept by `re.sub(r'[^\w\s]', '', s)`. -/
def isWordOrSpace (c : Char) : Bool := isWordChar c || isSpaceChar c

/-- Embedding of `DataMatcher._normalize_title`: lowercase, remove whole-word articles,
strip characters matching `[^\w\s]`, collapse whitespace, trim. -/
def normalizeTitle (s : List Char) : List Char :=
  pyStrip (pyJoin (pySplit ((removeArticles (s.map pyLower)).filter isWordOrSpace)))

/-- Embedding of `DataMatcher.match_movie_to_award`: exact match after normalization,
else substring containment either way, else token-set Jaccard similarity
compared against the threshold (false when the union is empty). -/
def matchMovieToAward (movieTitle awardMovieTitle : List Char) (threshold : ℚ) : Bool :=
  let t1 := normalizeTitle movieTitle
  let t2 := normalizeTitle awardMovieTitle
  if t1 = t2 then true
  else if isSubstring t1 t2 || isSubstring t2 t1 then true
  else
    let words1 := (pySplit t1).toFinset
    let words2 := (pySplit t2).toFinset
    let inter := words1 ∩ words2
    let uni := words1 ∪ words2
    if uni = ∅ then false
    else decide ((inter.card : ℚ) / (uni.card : ℚ) ≥ threshold)

/-- Default similarity threshold of `match_movie_to_award`. -/
def defaultThreshold : ℚ := 8 / 10

/-- Scanner for `re.sub(r'\[' ++ p ++ r'+\]', '', s)` where `p` is a character
class (digits for citation markers `[12]`, word characters for footnote
markers `[a]`).  The `pend` state holds the bracketed run seen so far,
reversed, after an opening bracket. -/
def stripBrGo (p : Char → Bool) (pend : Option (List Char)) : List Char → List Char
  | [] =>
    match pend with
    | none => []
    | some run => '[' :: run.reverse
  | c :: cs =>
    match pend with
    | none => if c = '[' then stripBrGo p (some []) cs else c :: stripBrGo p none cs
    | some run =>
      if p c then stripBrGo p (some (c :: run)) cs
      else if c = ']' then
        if run = [] then '[' :: ']' :: stripBrGo p none cs
        else stripBrGo p none cs
      else if c = '[' then ('[' :: run.reverse) ++ stripBrGo p (some []) cs
      else ('[' :: run.reverse) ++ c :: stripBrGo p none cs

/-- Python `c.isdigit()` / regex `\d` (ASCII fragment). -/
def isDigitChar (c : Char) : Bool := decide (48 ≤ c.toNat ∧ c.toNat ≤ 57)

/-- Embedding of `re.sub(r'\[\d+\]', '', s)`: remove citation brackets. -/
def stripCitations (s : List Char) : List Char := stripBrGo isDigitChar none s

/-- Embedding of `re.sub(r'\[edit\]', '', s)`: remove Wikipedia edit links. -/
def stripEdit : List Char → List Char
  | '[' :: 'e' :: 'd' :: 'i' :: 't' :: ']' :: rest => stripEdit rest
  | c :: rest => c :: stripEdit rest
  | [] => []

/-- Embedding of `WikipediaAwardsScraper._clean_text`: drop `[n]` citations and `[edit]`
links, then collapse whitespace and trim. -/
def cleanText (s : List Char) : List Char :=
  pyStrip (pyJoin (pySplit (stripEdit (stripCitations s))))

/-! ### Data model of the Wikipedia scraper (`wikipedia_scraper.py`) -/

/-- One `<a href=...>` element: its raw anchor text and target.  Only
anchors that carry an `href` attribute are collected (`find_all('a',
href=True)`). -/
structure Link where
  text : List Char
  href : List Char
deriving DecidableEq, Repr

/-- One `<td>`/`<th>` cell: its hyperlinks in document order, its inline
`style` attribute and its CSS class list. -/
structure Cell where
  links : List Link
  style : List Char
  classes : List (List Char)
deriving DecidableEq, Repr

/-- One table row as read by `_parse_nominees_table` / `_is_winner_row`:
presence of `<b>`/`<strong>` descendants, the row's `style` attribute, its
visible text, its CSS class list, and its cells in document order. -/
structure Row where
  hasBoldTag : Bool
  hasStrongTag : Bool
  style : List Char
  text : List Char
  classes : List (List Char)
  cells : List Cell
deriving DecidableEq, Repr

/-- One `<li>`/`<dd>` list item as read by `_parse_list_items`. -/
structure Item where
  text : List Char
  hasBoldOrStrong : Bool
  links : List Link
deriving DecidableEq, Repr

/-- The `Award` dataclass of `models/data_models.py` (dates elided to an
ISO string, as serialized). -/
structure Award where
  award_name : List Char
  ceremony_year : Option Int
  ceremony_number : Option Int
  category : List Char
  movie_title : Option (List Char)
  movie_tmdb_id : Option Int
  movie_imdb_id : Option (List Char)
  person_name : Option (List Char)
  person_role : Option (List Char)
  won : Bool
  nominated : Bool
  announcement_date : Option (List Char)
  ceremony_date : Option (List Char)
  notes : List Char
deriving DecidableEq, Repr

/-- The fields of a `Movie` record read by `DataMatcher`. -/
structure Movie where
  title : List Char
  tmdb_id : Option Int
  imdb_id : Option (List Char)
deriving DecidableEq, Repr

/-- The `MAJOR_CATEGORIES` list of `ImprovedAcademyAwardsScraper`. -/
def majorCategories : List (List Char) :=
  ["Best Picture", "Best Director", "Best Actor", "Best Actress",
   "Best Supporting Actor", "Best Supporting Actress",
   "Best Original Screenplay", "Best Adapted Screenplay",
   "Best Cinematography", "Best Film Editing", "Best Original Score",
   "Best Original Song", "Best Animated Feature",
   "Best International Feature Film",
   "Best Documentary Feature"].map String.toList

/-- Embedding of `_is_major_category`: some tracked category name is a substring of the
lower-cased heading text. -/
def isMajorCategory (category : List Char) : Bool :=
  majorCategories.any fun mc => isSubstring (mc.map pyLower) (category.map pyLower)

/-- Embedding of `_is_person_category`: the category mentions one of the person keywords. -/
def isPersonCategory (category : List Char) : Bool :=
  (["actor", "actress", "director", "writer", "screenplay"].map String.toList).any
    fun k => isSubstring k (category.map pyLower)

/-- Embedding of `_get_person_role`: ordered keyword checks, first match wins. -/
def getPersonRole (category : List Char) : List Char :=
  let cl := category.map pyLower
  if isSubstring "director".toList cl then "Director".toList
  else if isSubstring "actor".toList cl || isSubstring "actress".toList cl then
    if isSubstring "supporting".toList cl then "Supporting Actor".toList
    else "Lead Actor".toList
  else if isSubstring "screenplay".toList cl || isSubstring "writer".toList cl then
    "Writer".toList
  else if isSubstring "cinematography".toList cl then "Cinematographer".toList
  else if isSubstring "editing".toList cl then "Editor".toList
  else if isSubstring "score".toList cl || isSubstring "song".toList cl then
    "Composer".toList
  else "Unknown".toList

/-- Background colors accepted by `_is_winner_row`, method 2. -/
def winnerColors : List (List Char) :=
  ["#faeb86", "#ffc", "gold", "yellow", "winner"].map String.toList

/-- Embedding of `_is_winner_row`: bold/strong markup, or a row background style with a
known highlight color, or a trophy glyph / the word "winner" in the text,
or a first cell with any background style or a "winner" CSS class. -/
def isWinnerRow (r : Row) : Bool :=
  if r.hasBoldTag || r.hasStrongTag then true
  else
    let style := r.style.map pyLower
    if isSubstring "background".toList style &&
        winnerColors.any (fun color => isSubstring color style) then true
    else if r.text.contains '🏆' || isSubstring "winner".toList (r.text.map pyLower) then
      true
    else
      match r.cells.head? with
      | none => false
      | some firstCell =>
        let cellStyle := firstCell.style.map pyLower
        if isSubstring "background".toList cellStyle then true
        else
          let cellCls := (pyJoin firstCell.classes).map pyLower
          isSubstring "winner".toList cellCls

/-- The link loop shared by `_parse_nominees_table` and `_parse_list_items`:
links with empty cleaned text or a fragment target are skipped; the first
usable link becomes the movie title; for person-centric categories the next
usable link becomes the person name. -/
def assignLinks (personCat : Bool) (mt pn : Option (List Char)) :
    List Link → Option (List Char) × Option (List Char)
  | [] => (mt, pn)
  | l :: ls =>
    let t := cleanText l.text
    if t = [] || startsWithHash l.href then assignLinks personCat mt pn ls
    else
      match mt with
      | none => assignLinks personCat (some t) pn ls
      | some m =>
        match pn with
        | none =>
          if personCat then assignLinks personCat (some m) (some t) ls
          else assignLinks personCat (some m) none ls
        | some p => assignLinks personCat (some m) (some p) ls

def extractTitlePerson (personCat : Bool) (links : List Link) :
    Option (List Char) × Option (List Char) :=
  assignLinks personCat none none links

/-- The `Award(award_name="Academy Awards", ...)` constructor call shared
by `_parse_nominees_table` and `_parse_list_items`; fields the call does
not pass keep their dataclass defaults. -/
def mkAward (category : List Char) (year ceremonyNumber : Int)
    (movieTitle personName personRole : Option (List Char)) (won : Bool) : Award :=
  { award_name := "Academy Awards".toList
    ceremony_year := some year
    ceremony_number := some ceremonyNumber
    category := category
    movie_title := movieTitle
    movie_tmdb_id := none
    movie_imdb_id := none
    person_name := personName
    person_role := personRole
    won := won
    nominated := true
    announcement_date := none
    ceremony_date := none
    notes := [] }

/-- The body of the row loop of `_parse_nominees_table`: skip rows without
cells and rows whose first cell has no hyperlinks; otherwise always build an
`Award`. -/
def tableRowToAward (category : List Char) (year ceremonyNumber : Int) (row : Row) :
    Option Award :=
  match row.cells.head? with
  | none => none
  | some firstCell =>
    if firstCell.links = [] then none
    else
      let w := isWinnerRow row
      let mp := extractTitlePerson (isPersonCategory category) firstCell.links
      let role := match mp.2 with
        | some _ => some (getPersonRole category)
        | none => none
      some (mkAward category year ceremonyNumber mp.1 mp.2 role w)

/-- Embedding of `_parse_nominees_table`: parse every row after the header row. -/
def parseNomineesTable (rows : List Row) (category : List Char)
    (year ceremonyNumber : Int) : List Award :=
  (rows.drop 1).filterMap (tableRowToAward category year ceremonyNumber)

/-- The body of the item loop of `_parse_list_items`: skip short items and
items without hyperlinks; winner detection uses bold/strong markup or the
literal substring `(winner)`. -/
def listItemToAward (category : List Char) (year ceremonyNumber : Int) (item : Item) :
    Option Award :=
  let text := cleanText item.text
  if text = [] || text.length < 3 then none
  else
    let w := item.hasBoldOrStrong || isSubstring "(winner)".toList (text.map pyLower)
    if item.links = [] then none
    else
      let mp := extractTitlePerson (isPersonCategory category) item.links
      let role := match mp.2 with
        | some _ => some (getPersonRole category)
        | none => none
      some (mkAward category year ceremonyNumber mp.1 mp.2 role w)

/-- Embedding of `_parse_list_items` over all `<li>`/`<dd>` items of one list block. -/
def parseListItems (items : List Item) (category : List Char)
    (year ceremonyNumber : Int) : List Award :=
  items.filterMap (listItemToAward category year ceremonyNumber)

/-- One `wikitable` together with the text of its nearest preceding
`h2`-`h4` heading (after edit-marker removal, before `_clean_text`), as
found by `_find_category_header`; `none` when no heading precedes it. -/
structure TableRegion where
  heading : Option (List Char)
  rows : List Row
deriving DecidableEq, Repr

/-- The first table or list block following a section heading before the
next heading, as scanned by `_parse_by_sections`. -/
inductive SectionContent where
  | table (rows : List Row)
  | list (items : List Item)
deriving DecidableEq, Repr

/-- One `h2`/`h3` heading region: the text of its `mw-headline` span when
present, and the first table/list sibling block before the next heading. -/
structure SectionRegion where
  headline : Option (List Char)
  content : Option SectionContent
deriving DecidableEq, Repr

/-- One `ul`/`dl` block with the text of its nearest preceding `h2`-`h4`
heading, as found by `_parse_lists`. -/
structure ListRegion where
  heading : Option (List Char)
  items : List Item
deriving DecidableEq, Repr

/-- One ceremony page, as seen by the three extraction strategies. -/
structure Page where
  tables : List TableRegion
  sections : List SectionRegion
  lists : List ListRegion
deriving DecidableEq, Repr

/-- Embedding of `_parse_standard_tables`: parse every `wikitable` whose governing
heading is a non-empty major-category text. -/
def parseStandardTables (tables : List TableRegion) (year ceremonyNumber : Int) :
    List Award :=
  tables.flatMap fun t =>
    match t.heading with
    | none => []
    | some h =>
      let category := cleanText h
      if category = [] then []
      else if isMajorCategory category then
        parseNomineesTable t.rows category year ceremonyNumber
      else []

/-- Embedding of `_parse_by_sections`: for every qualifying heading, parse the first
table or list block found among its following siblings. -/
def parseBySections (sections : List SectionRegion) (year ceremonyNumber : Int) :
    List Award :=
  sections.flatMap fun sec =>
    match sec.headline with
    | none => []
    | some h =>
      let category := cleanText h
      if isMajorCategory category then
        match sec.content with
        | some (SectionContent.table rows) =>
          parseNomineesTable rows category year ceremonyNumber
        | some (SectionContent.list items) =>
          parseListItems items category year ceremonyNumber
        | none => []
      else []

/-- Embedding of `_parse_lists`: parse every list block whose preceding heading is a
major category. -/
def parseLists (lists : List ListRegion) (year ceremonyNumber : Int) : List Award :=
  lists.flatMap fun l =>
    match l.heading with
    | none => []
    | some h =>
      let category := cleanText h
      if isMajorCategory category then
        parseListItems l.items category year ceremonyNumber
      else []

/-- First ceremony year of the Academy Awards series. -/
def foundingYear : Int := 1929

/-- Embedding of `scrape_year`: compute the ceremony number, then apply the three parsing
strategies in order, each later one only when the previous produced no
awards. -/
def scrapeYear (page : Page) (year : Int) : List Award :=
  let ceremonyNumber := year - foundingYear + 1
  let awards1 := parseStandardTables page.tables year ceremonyNumber
  if awards1.isEmpty then
    let awards2 := parseBySections page.sections year ceremonyNumber
    if awards2.isEmpty then parseLists page.lists year ceremonyNumber
    else awards2
  else awards1

/-! ### Enrichment (`DataMatcher.enrich_awards_with_movie_data`) -/

/-- Python dict assignment `d[k] = v`: replace in place, else append. -/
def dictInsert (d : List (List Char × Movie)) (k : List Char) (m : Movie) :
    List (List Char × Movie) :=
  match d with
  | [] => [(k, m)]
  | (k0, m0) :: rest =>
    if k0 = k then (k0, m) :: rest else (k0, m0) :: dictInsert rest k m

/-- The `movie_lookup` dict comprehension, keyed by normalized title
(last-write-wins, insertion order preserved). -/
def buildLookup (movies : List Movie) : List (List Char × Movie) :=
  movies.foldl (fun d m => dictInsert d (normalizeTitle m.title) m) []

/-- Python `key in dict` / `dict[key]`. -/
def dictGet (d : List (List Char × Movie)) (k : List Char) : Option Movie :=
  (d.find? fun p => p.1 = k).map Prod.snd

/-- The fuzzy fallback: scan the lookup in insertion order and stop at the
first movie matching the award title at the default threshold. -/
def fuzzyFind (d : List (List Char × Movie)) (awardTitle : List Char) : Option Movie :=
  (d.find? fun p => matchMovieToAward p.2.title awardTitle defaultThreshold).map Prod.snd

/-- The body of the award loop of `enrich_awards_with_movie_data`. -/
def enrichOne (d : List (List Char × Movie)) (a : Award) : Award :=
  match a.movie_title with
  | none => a
  | some t =>
    if t = [] then a
    else
      match dictGet d (normalizeTitle t) with
      | some m => { a with movie_tmdb_id := m.tmdb_id, movie_imdb_id := m.imdb_id }
      | none =>
        match fuzzyFind d t with
        | some m => { a with movie_tmdb_id := m.tmdb_id, movie_imdb_id := m.imdb_id }
        | none => a

/-- Embedding of `DataMatcher.enrich_awards_with_movie_data`. -/
def enrichAwardsWithMovieData (awards : List Award) (movies : List Movie) :
    List Award :=
  awards.map (enrichOne (buildLookup movies))

/-- Every `Award` field except the two enrichment link fields. -/
def awardFrame (a : Award) :
    List Char × Option Int × Option Int × List Char × Option (List Char) ×
    Option (List Char) × Option (List Char) × Bool × Bool ×
    Option (List Char) × Option (List Char) × List Char :=
  (a.award_name, a.ceremony_year, a.ceremony_number, a.category, a.movie_title,
   a.person_name, a.person_role, a.won, a.nominated, a.announcement_date,
   a.ceremony_date, a.notes)

/-! ### The standalone scrapers (`oscars_best_picture_scraper.py`,
`oscars_major_categories_scraper.py`) -/

/-- Embedding of `re.search(r'\d{4}', s)`: some four consecutive digits occur. -/
def hasFourDigitRun : List Char → Bool
  | a :: b :: c :: d :: rest =>
    (isDigitChar a && isDigitChar b && isDigitChar c && isDigitChar d) ||
      hasFourDigitRun (b :: c :: d :: rest)
  | _ => false

/-- The shared `clean_title` / `clean_text` of the standalone scrapers:
`re.sub(r'\[\w+\]', '', s).strip()`. -/
def cleanFootnotes (s : List Char) : List Char :=
  pyStrip (stripBrGo isWordChar none s)

/-- The year-tracking update shared by both standalone scrapers: when the
row has a `<th>` whose text contains four consecutive digits, the carried
year becomes the first whitespace token of that text. -/
def updateYear (cur : Option (List Char)) (thText : Option (List Char)) :
    Option (List Char) :=
  match thText with
  | some t => if hasFourDigitRun t then some ((pySplit t).headD []) else cur
  | none => cur

/-- A row of `oscars_best_picture_scraper.scrape_movies`: presence of
cells, the first `<th>`'s text, the row text, and the title column
(`row.find('i') or row.find('td')`) with its winner markup. -/
structure BPRow where
  hasCols : Bool
  thText : Option (List Char)
  text : List Char
  titleText : Option (List Char)
  titleHasWinnerMark : Bool
deriving DecidableEq, Repr

/-- A record emitted by `scrape_movies`. -/
structure BPRec where
  year : Option (List Char)
  title : List Char
  winner : Bool
deriving DecidableEq, Repr

/-- The body of the row loop of `scrape_movies`: carry the year state,
skip the header row (index 0 containing "Film"), emit a record when the
cleaned title is non-empty. -/
def bpProcessRow (idx : Nat) (cur : Option (List Char)) (row : BPRow) :
    Option (List Char) × Option BPRec :=
  if !row.hasCols then (cur, none)
  else
    let cur' := updateYear cur row.thText
    if idx = 0 && isSubstring "Film".toList row.text then (cur', none)
    else
      match row.titleText with
      | none => (cur', none)
      | some tt =>
        let title := cleanFootnotes tt
        if title = [] then (cur', none)
        else (cur', some ⟨cur', title, row.titleHasWinnerMark⟩)

/-- A row of `oscars_major_categories_scraper.scrape_category`: presence of
cells, the first `<th>`'s text, the row text, the first `<b>`'s text, the
first `<td>`'s text and the first `<i>`'s text. -/
structure CatRow where
  hasCols : Bool
  thText : Option (List Char)
  text : List Char
  bText : Option (List Char)
  tdText : Option (List Char)
  iText : Option (List Char)
deriving DecidableEq, Repr

/-- A record emitted by `scrape_category`. -/
structure CatRec where
  year : Option (List Char)
  nominee : List Char
  movie : List Char
  winner : Bool
deriving DecidableEq, Repr

/-- The body of the row loop of `scrape_category`: carry the year state,
skip the header row (index 0 containing the category name), emit a record
when the cleaned nominee name is non-empty; a row is a winner when it
contains a `<b>` element. -/
def catProcessRow (categoryName : List Char) (idx : Nat) (cur : Option (List Char))
    (row : CatRow) : Option (List Char) × Option CatRec :=
  if !row.hasCols then (cur, none)
  else
    let cur' := updateYear cur row.thText
    if idx = 0 && isSubstring categoryName row.text then (cur', none)
    else
      match row.bText.or row.tdText with
      | none => (cur', none)
      | some nt =>
        let nominee := cleanFootnotes nt
        let movie := match row.iText with
          | some it => cleanFootnotes it
          | none => []
        let winner := row.bText.isSome
        if nominee = [] then (cur', none)
        else (cur', some ⟨cur', nominee, movie, winner⟩)

/-! ### Derived predicates and concrete instances used by the theorems -/

/-- A hyperlink is usable when its cleaned anchor text is non-empty and its
target is not a fragment reference. -/
def usableLink (l : Link) : Bool :=
  decide (cleanText l.text ≠ []) && !startsWithHash l.href

/-- The cleaned texts of the usable links, in document order. -/
def usableTexts (ls : List Link) : List (List Char) :=
  (ls.filter usableLink).map fun l => cleanText l.text

/-- A style attribute containing "background" together with one of the
known highlight colors. -/
def styleHasHighlight (style : List Char) : Bool :=
  isSubstring "background".toList (style.map pyLower) &&
    winnerColors.any fun color => isSubstring color (style.map pyLower)

/-- Some CSS class of the list contains "winner". -/
def classesHaveWinner (classes : List (List Char)) : Bool :=
  isSubstring "winner".toList ((pyJoin classes).map pyLower)

/-- Modelled from the spec: the four winner signals as the specification
words them — (a) bold/strong markup; (b) an inline style attribute with
"background" and a known highlight color; (c) a trophy glyph or the word
"winner" in the text; (d) a "winner" CSS class on the row or its first
cell.  Kept separate from `isWinnerRow` for comparison. -/
def winnerSpecSignals (r : Row) : Bool :=
  (r.hasBoldTag || r.hasStrongTag) ||
  (styleHasHighlight r.style ||
    (match r.cells.head? with
     | some c => styleHasHighlight c.style
     | none => false)) ||
  (r.text.contains '🏆' || isSubstring "winner".toList (r.text.map pyLower)) ||
  (classesHaveWinner r.classes ||
    (match r.cells.head? with
     | some c => classesHaveWinner c.classes
     | none => false))

/-- The signals `_is_winner_row` actually tests, as one flat disjunction:
the row-level background check demands a known highlight color, but the
first-cell background check accepts any color. -/
def winnerCodeSignals (r : Row) : Bool :=
  (r.hasBoldTag || r.hasStrongTag) ||
  styleHasHighlight r.style ||
  (r.text.contains '🏆' || isSubstring "winner".toList (r.text.map pyLower)) ||
  (match r.cells.head? with
   | some c =>
     isSubstring "background".toList (c.style.map pyLower) ||
       isSubstring "winner".toList ((pyJoin c.classes).map pyLower)
   | none => false)

/-- A row whose only markup is a first-cell background in a color outside
the highlight list. -/
def blueBackgroundRow : Row :=
  { hasBoldTag := false, hasStrongTag := false, style := [], text := [],
    classes := [],
    cells := [{ links := [], style := "background:#123456".toList, classes := [] }] }

/-- A table header row (no cells). -/
def headerRow : Row :=
  { hasBoldTag := false, hasStrongTag := false, style := [],
    text := "Film Producer".toList, classes := [], cells := [] }

/-- A data row whose only hyperlink is a fragment self-reference. -/
def fragmentOnlyRow : Row :=
  { hasBoldTag := false, hasStrongTag := false, style := [], text := [],
    classes := [],
    cells := [{ links := [{ text := "note".toList, href := "#cite1".toList }],
                style := [], classes := [] }] }

/-- A bolded nominee row with one usable film link. -/
def sampleRow : Row :=
  { hasBoldTag := true, hasStrongTag := false, style := [],
    text := "Oppenheimer".toList, classes := [],
    cells := [{ links := [{ text := "Oppenheimer".toList,
                            href := "/wiki/Oppenheimer_(film)".toList }],
                style := [], classes := [] }] }

/-- A one-table page for the Best Picture category. -/
def samplePage : Page :=
  { tables := [{ heading := some "Best Picture".toList,
                 rows := [headerRow, sampleRow] }],
    sections := [], lists := [] }

/-- A bolded list item with one usable film link. -/
def sampleItem : Item :=
  { text := "Oppenheimer - winner".toList, hasBoldOrStrong := true,
    links := [{ text := "Oppenheimer".toList,
                href := "/wiki/Oppenheimer_(film)".toList }] }

/-- One qualifying list block under a major-category heading. -/
def sampleList : ListRegion :=
  { heading := some "Best Picture".toList, items := [sampleItem] }

/-- A page with no tables and no sections, only the one qualifying list. -/
def listOnlyPage : Page :=
  { tables := [], sections := [], lists := [sampleList] }

/-- A list item whose two hyperlinks are both unusable: empty anchor text
and a fragment target. -/
def fragmentItem : Item :=
  { text := "Some nominee".toList, hasBoldOrStrong := false,
    links := [{ text := [], href := "/wiki/X".toList },
              { text := "ref".toList, href := "#r".toList }] }

/-- The award that `samplePage` yields for ceremony year 2024. -/
def bestPictureAward2024 : Award :=
  { award_name := "Academy Awards".toList, ceremony_year := some 2024,
    ceremony_number := some 96, category := "Best Picture".toList,
    movie_title := some "Oppenheimer".toList, movie_tmdb_id := none,
    movie_imdb_id := none, person_name := none, person_role := none,
    won := true, nominated := true, announcement_date := none,
    ceremony_date := none, notes := [] }

/-- A scraper row with no year token in its header cell. -/
def noYearBPRow : BPRow :=
  { hasCols := true, thText := none, text := "Titanic row".toList,
    titleText := some "Titanic".toList, titleHasWinnerMark := true }

/-- A category-scraper row with no year token in its header cell. -/
def noYearCatRow : CatRow :=
  { hasCols := true, thText := some "n/a".toList, text := "row".toList,
    bText := some "Tom Hanks".toList, tdText := some "Tom Hanks".toList,
    iText := some "Philadelphia".toList }

/-! ### Character-level lemmas -/

theorem toNat_pyLower (c : Char) :
    (pyLower c).toNat = if 65 ≤ c.toNat ∧ c.toNat ≤ 90 then c.toNat + 32 else c.toNat := by
  unfold pyLower
  by_cases h : 65 ≤ c.toNat ∧ c.toNat ≤ 90
  · rw [if_pos h, if_pos h]
    obtain ⟨h1, h2⟩ := h
    interval_cases h3 : c.toNat <;> decide
  · rw [if_neg h, if_neg h]

theorem pyLower_eq_self (c : Char) (h : ¬ (65 ≤ c.toNat ∧ c.toNat ≤ 90)) :
    pyLower c = c := by
  unfold pyLower
  rw [if_neg h]

theorem pyLower_idem (c : Char) : pyLower (pyLower c) = pyLower c := by
  apply pyLower_eq_self
  rw [toNat_pyLower c]
  by_cases h : 65 ≤ c.toNat ∧ c.toNat ≤ 90
  · rw [if_pos h]; omega
  · rw [if_neg h]; exact h

theorem isWordChar_pyLower (c : Char) : isWordChar (pyLower c) = isWordChar c := by
  simp only [isWordChar, toNat_pyLower c]
  by_cases h : 65 ≤ c.toNat ∧ c.toNat ≤ 90
  · rw [if_pos h]
    simp only [decide_eq_decide]
    omega
  · rw [if_neg h]

theorem isSpaceChar_pyLower (c : Char) : isSpaceChar (pyLower c) = isSpaceChar c := by
  simp only [isSpaceChar, toNat_pyLower c]
  by_cases h : 65 ≤ c.toNat ∧ c.toNat ≤ 90
  · rw [if_pos h]
    simp only [decide_eq_decide]
    omega
  · rw [if_neg h]

theorem not_space_of_word (c : Char) (h : isWordChar c = true) : isSpaceChar c = false := by
  simp only [isWordChar, decide_eq_true_eq] at h
  simp only [isSpaceChar, decide_eq_false_iff_not]
  omega

theorem word_of_wordOrSpace_not_space (c : Char) (h : isWordOrSpace c = true)
    (hs : isSpaceChar c = false) : isWordChar c = true := by
  simp only [isWordOrSpace, Bool.or_eq_true] at h
  rcases h with h | h
  · exact h
  · rw [h] at hs; cases hs

theorem space_of_wordOrSpace_not_word (c : Char) (h : isWordOrSpace c = true)
    (hw : ¬ isWordChar c = true) : isSpaceChar c = true := by
  simp only [isWordOrSpace, Bool.or_eq_true] at h
  tauto

/-! ### Tokenization lemmas -/

theorem pySplitGo_nil (cur : List Char) :
    pySplitGo cur [] = if cur = [] then [] else [cur.reverse] := rfl

theorem pySplitGo_cons (cur : List Char) (c : Char) (cs : List Char) :
    pySplitGo cur (c :: cs) =
      if isSpaceChar c then
        if cur = [] then pySplitGo [] cs else cur.reverse :: pySplitGo [] cs
      else pySplitGo (c :: cur) cs := rfl

theorem pySplitGo_token_ne_nil :
    ∀ (s cur : List Char), ∀ tok ∈ pySplitGo cur s, tok ≠ [] := by
  intro s
  induction s with
  | nil =>
    intro cur tok htok
    rw [pySplitGo_nil] at htok
    by_cases hcur : cur = []
    · rw [if_pos hcur] at htok; cases htok
    · rw [if_neg hcur] at htok
      rcases List.mem_singleton.mp htok with rfl
      simpa using hcur
  | cons c cs ih =>
    intro cur tok htok
    rw [pySplitGo_cons] at htok
    by_cases hsp : isSpaceChar c
    · rw [if_pos hsp] at htok
      by_cases hcur : cur = []
      · rw [if_pos hcur] at htok; exact ih [] tok htok
      · rw [if_neg hcur] at htok
        rcases List.mem_cons.mp htok with rfl | h
        · simpa using hcur
        · exact ih [] tok h
    · rw [if_neg hsp] at htok
      exact ih (c :: cur) tok htok

theorem pySplitGo_token_mem :
    ∀ (s cur : List Char), ∀ tok ∈ pySplitGo cur s, ∀ c ∈ tok,
      c ∈ cur ∨ (c ∈ s ∧ isSpaceChar c = false) := by
  intro s
  induction s with
  | nil =>
    intro cur tok htok c hc
    rw [pySplitGo_nil] at htok
    by_cases hcur : cur = []
    · rw [if_pos hcur] at htok; cases htok
    · rw [if_neg hcur] at htok
      rcases List.mem_singleton.mp htok with rfl
      exact Or.inl (List.mem_reverse.mp hc)
  | cons d cs ih =>
    intro cur tok htok c hc
    rw [pySplitGo_cons] at htok
    by_cases hsp : isSpaceChar d
    · rw [if_pos hsp] at htok
      by_cases hcur : cur = []
      · rw [if_pos hcur] at htok
        rcases ih [] tok htok c hc with h | ⟨h1, h2⟩
        · cases h
        · exact Or.inr ⟨List.mem_cons_of_mem d h1, h2⟩
      · rw [if_neg hcur] at htok
        rcases List.mem_cons.mp htok with rfl | h
        · exact Or.inl (List.mem_reverse.mp hc)
        · rcases ih [] tok h c hc with h' | ⟨h1, h2⟩
          · cases h'
          · exact Or.inr ⟨List.mem_cons_of_mem d h1, h2⟩
    · rw [if_neg hsp] at htok
      rcases ih (d :: cur) tok htok c hc with h | ⟨h1, h2⟩
      · rcases List.mem_cons.mp h with rfl | h'
        · exact Or.inr ⟨List.mem_cons_self c cs, by simpa using hsp⟩
        · exact Or.inl h'
      · exact Or.inr ⟨List.mem_cons_of_mem d h1, h2⟩

theorem pySplitGo_word_append :
    ∀ (w cur cs : List Char), (∀ c ∈ w, isSpaceChar c = false) →
      pySplitGo cur (w ++ cs) = pySplitGo (w.reverse ++ cur) cs := by
  intro w
  induction w with
  | nil => intro cur cs _; rfl
  | cons c w' ih =>
    intro cur cs hw
    have hc : isSpaceChar c = false := hw c (List.mem_cons_self c w')
    rw [List.cons_append, pySplitGo_cons, if_neg (by simp [hc]),
      ih (c :: cur) cs (fun x hx => hw x (List.mem_cons_of_mem c hx))]
    congr 1
    simp

theorem pySplit_word (w : List Char) (hw : ∀ c ∈ w, isSpaceChar c = false) :
    pySplit w = if w = [] then [] else [w] := by
  have h : pySplit w = pySplitGo w.reverse [] := by
    have := pySplitGo_word_append w [] [] hw
    simpa [pySplit] using this
  rw [h, pySplitGo_nil]
  by_cases hw0 : w = []
  · subst hw0; simp
  · rw [if_neg (by simpa using hw0), if_neg hw0, List.reverse_reverse]

theorem pyJoin_cons (t : List Char) (rest : List (List Char)) :
    pyJoin (t :: rest) = t ++ (if rest = [] then [] else ' ' :: pyJoin rest) := by
  cases rest with
  | nil => simp [pyJoin]
  | cons t' r => simp [pyJoin]

theorem pySplit_pyJoin (toks : List (List Char))
    (h1 : ∀ t ∈ toks, t ≠ [])
    (h2 : ∀ t ∈ toks, ∀ c ∈ t, isSpaceChar c = false) :
    pySplit (pyJoin toks) = toks := by
  induction toks with
  | nil => rfl
  | cons t rest ih =>
    have ht1 : t ≠ [] := h1 t (List.mem_cons_self t rest)
    have ht2 : ∀ c ∈ t, isSpaceChar c = false := h2 t (List.mem_cons_self t rest)
    cases rest with
    | nil =>
      rw [pyJoin_cons, if_pos rfl, List.append_nil, pySplit_word t ht2, if_neg ht1]
    | cons t' r =>
      rw [pyJoin_cons, if_neg (by simp)]
      have h := pySplitGo_word_append t [] (' ' :: pyJoin (t' :: r)) ht2
      rw [pySplit, h, List.append_nil, pySplitGo_cons, if_pos (by decide),
        if_neg (by simpa using ht1), List.reverse_reverse]
      congr 1
      exact ih (fun x hx => h1 x (List.mem_cons_of_mem t hx))
        (fun x hx => h2 x (List.mem_cons_of_mem t hx))

/-! ### Article-removal lemmas -/

theorem removeArticlesGo_nil (run : List Char) :
    removeArticlesGo run [] = emitRun run.reverse := rfl

theorem removeArticlesGo_cons (run : List Char) (c : Char) (cs : List Char) :
    removeArticlesGo run (c :: cs) =
      if isWordChar c then removeArticlesGo (c :: run) cs
      else emitRun run.reverse ++ c :: removeArticlesGo [] cs := rfl

theorem mem_emitRun (run : List Char) (c : Char) (h : c ∈ emitRun run) : c ∈ run := by
  unfold emitRun at h
  by_cases ha : isArticle run
  · rw [if_pos ha] at h; cases h
  · rwa [if_neg ha] at h

theorem mem_removeArticlesGo :
    ∀ (s run : List Char), ∀ c ∈ removeArticlesGo run s, c ∈ run ∨ c ∈ s := by
  intro s
  induction s with
  | nil =>
    intro run c hc
    rw [removeArticlesGo_nil] at hc
    exact Or.inl (List.mem_reverse.mp (mem_emitRun _ c hc))
  | cons d cs ih =>
    intro run c hc
    rw [removeArticlesGo_cons] at hc
    by_cases hw : isWordChar d
    · rw [if_pos hw] at hc
      rcases ih (d :: run) c hc with h | h
      · rcases List.mem_cons.mp h with rfl | h'
        · exact Or.inr (List.mem_cons_self c cs)
        · exact Or.inl h'
      · exact Or.inr (List.mem_cons_of_mem d h)
    · rw [if_neg hw] at hc
      rcases List.mem_append.mp hc with h | h
      · exact Or.inl (List.mem_reverse.mp (mem_emitRun _ c h))
      · rcases List.mem_cons.mp h with rfl | h'
        · exact Or.inr (List.mem_cons_self c cs)
        · rcases ih [] c h' with h'' | h''
          · cases h''
          · exact Or.inr (List.mem_cons_of_mem d h'')

theorem removeArticlesGo_word_append :
    ∀ (w run cs : List Char), (∀ c ∈ w, isWordChar c = true) →
      removeArticlesGo run (w ++ cs) = removeArticlesGo (w.reverse ++ run) cs := by
  intro w
  induction w with
  | nil => intro run cs _; rfl
  | cons c w' ih =>
    intro run cs hw
    have hc : isWordChar c = true := hw c (List.mem_cons_self c w')
    rw [List.cons_append, removeArticlesGo_cons, if_pos hc,
      ih (c :: run) cs (fun x hx => hw x (List.mem_cons_of_mem c hx))]
    congr 1
    simp

theorem isArticle_nil : isArticle [] = false := by decide

theorem pySplit_removeArticlesGo :
    ∀ (s run : List Char), (∀ c ∈ s, isWordOrSpace c = true) →
      (∀ c ∈ run, isWordChar c = true) →
      pySplit (removeArticlesGo run s) =
        (pySplitGo run s).filter (fun w => !isArticle w) := by
  intro s
  induction s with
  | nil =>
    intro run _ hrun
    rw [removeArticlesGo_nil, pySplitGo_nil]
    by_cases hcur : run = []
    · subst hcur
      simp [emitRun, isArticle_nil, pySplit, pySplitGo_nil]
    · rw [if_neg hcur]
      unfold emitRun
      by_cases ha : isArticle run.reverse
      · rw [if_pos ha]
        simp [pySplit, pySplitGo_nil, ha]
      · rw [if_neg ha]
        have hword : ∀ c ∈ run.reverse, isSpaceChar c = false := fun c hc =>
          not_space_of_word c (hrun c (List.mem_reverse.mp hc))
        rw [pySplit_word run.reverse hword, if_neg (by simpa using hcur)]
        simp [ha]
  | cons c cs ih =>
    intro run hs hrun
    have hc : isWordOrSpace c = true := hs c (List.mem_cons_self c cs)
    have hs' : ∀ x ∈ cs, isWordOrSpace x = true := fun x hx =>
      hs x (List.mem_cons_of_mem c hx)
    rw [removeArticlesGo_cons, pySplitGo_cons]
    by_cases hw : isWordChar c
    · rw [if_pos hw, if_neg (by simp [not_space_of_word c hw])]
      exact ih (c :: run) hs' (by
        intro x hx
        rcases List.mem_cons.mp hx with rfl | h
        · exact hw
        · exact hrun x h)
    · have hsp : isSpaceChar c = true := space_of_wordOrSpace_not_word c hc hw
      rw [if_neg hw, if_pos hsp]
      by_cases hcur : run = []
      · subst hcur
        rw [if_pos rfl]
        have : emitRun List.nil.reverse = [] := by simp [emitRun, isArticle_nil]
        rw [this, List.nil_append, pySplit, pySplitGo_cons, if_pos hsp, if_pos rfl]
        exact ih [] hs' (by intro x hx; cases hx)
      · rw [if_neg hcur]
        unfold emitRun
        by_cases ha : isArticle run.reverse
        · rw [if_pos ha, List.nil_append, pySplit, pySplitGo_cons, if_pos hsp, if_pos rfl]
          rw [List.filter_cons]
          simp only [ha]
          exact ih [] hs' (by intro x hx; cases hx)
        · rw [if_neg ha]
          have hword : ∀ x ∈ run.reverse, isWordChar x = true := fun x hx =>
            hrun x (List.mem_reverse.mp hx)
          have hnsp : ∀ x ∈ run.reverse, isSpaceChar x = false := fun x hx =>
            not_space_of_word x (hword x hx)
          have h := pySplitGo_word_append run.reverse []
            (c :: removeArticlesGo [] cs) hnsp
          rw [pySplit, h, List.append_nil, List.reverse_reverse, pySplitGo_cons,
            if_pos hsp, if_neg hcur, List.filter_cons]
          simp only [ha]
          have hcs := ih [] hs' (by intro x hx; cases hx)
          rw [pySplit] at hcs
          rw [hcs]
          simp

theorem pySplit_removeArticles (u : List Char) (hu : ∀ c ∈ u, isWordOrSpace c = true) :
    pySplit (removeArticles u) = (pySplit u).filter (fun w => !isArticle w) :=
  pySplit_removeArticlesGo u [] hu (by intro x hx; cases hx)

theorem removeArticles_pyJoin (toks : List (List Char))
    (h1 : ∀ t ∈ toks, t ≠ [])
    (h2 : ∀ t ∈ toks, ∀ c ∈ t, isWordChar c = true)
    (h3 : ∀ t ∈ toks, isArticle t = false) :
    removeArticles (pyJoin toks) = pyJoin toks := by
  induction toks with
  | nil => rfl
  | cons t rest ih =>
    have ht2 : ∀ c ∈ t, isWordChar c = true := h2 t (List.mem_cons_self t rest)
    have ht3 : isArticle t = false := h3 t (List.mem_cons_self t rest)
    cases rest with
    | nil =>
      show removeArticlesGo [] (pyJoin [t]) = pyJoin [t]
      have h := removeArticlesGo_word_append t [] [] ht2
      simp only [pyJoin] at h ⊢
      rw [List.append_nil] at h
      rw [removeArticles] at *
      rw [h, removeArticlesGo_nil, List.append_nil, List.reverse_reverse]
      simp [emitRun, ht3]
    | cons t' r =>
      rw [pyJoin_cons, if_neg (by simp)]
      have h := removeArticlesGo_word_append t [] (' ' :: pyJoin (t' :: r)) ht2
      rw [removeArticles, h, List.append_nil, removeArticlesGo_cons,
        if_neg (by decide), List.reverse_reverse]
      have hrest := ih (fun x hx => h1 x (List.mem_cons_of_mem t hx))
        (fun x hx => h2 x (List.mem_cons_of_mem t hx))
        (fun x hx => h3 x (List.mem_cons_of_mem t hx))
      rw [removeArticles] at hrest
      rw [hrest]
      simp [emitRun, ht3]

theorem mem_pyJoin :
    ∀ (toks : List (List Char)), ∀ c ∈ pyJoin toks, c = ' ' ∨ ∃ t ∈ toks, c ∈ t := by
  intro toks
  induction toks with
  | nil => intro c hc; cases hc
  | cons t rest ih =>
    intro c hc
    rw [pyJoin_cons] at hc
    rcases List.mem_append.mp hc with h | h
    · exact Or.inr ⟨t, List.mem_cons_self t rest, h⟩
    · by_cases hr : rest = []
      · rw [if_pos hr] at h; cases h
      · rw [if_neg hr] at h
        rcases List.mem_cons.mp h with rfl | h'
        · exact Or.inl rfl
        · rcases ih c h' with h'' | ⟨t', ht', hc'⟩
          · exact Or.inl h''
          · exact Or.inr ⟨t', List.mem_cons_of_mem t ht', hc'⟩

theorem dropWhile_pyJoin (toks : List (List Char))
    (h1 : ∀ t ∈ toks, t ≠ [])
    (h2 : ∀ t ∈ toks, ∀ c ∈ t, isSpaceChar c = false) :
    (pyJoin toks).dropWhile isSpaceChar = pyJoin toks := by
  cases toks with
  | nil => rfl
  | cons t rest =>
    rw [pyJoin_cons]
    cases ht : t with
    | nil => exact absurd ht (h1 t (List.mem_cons_self t rest))
    | cons c t' =>
      have hc : isSpaceChar c = false := by
        apply h2 t (List.mem_cons_self t rest)
        rw [ht]; exact List.mem_cons_self c t'
      rw [List.cons_append, List.dropWhile_cons_of_neg (by simp [hc])]

theorem pyJoin_append_single :
    ∀ (A : List (List Char)) (w : List Char),
      pyJoin (A ++ [w]) = if A = [] then w else pyJoin A ++ ' ' :: w := by
  intro A
  induction A with
  | nil => intro w; simp [pyJoin]
  | cons x A' ih =>
    intro w
    rw [if_neg (by simp)]
    cases A' with
    | nil => simp [pyJoin]
    | cons z A'' =>
      have h1 : pyJoin ((x :: z :: A'') ++ [w]) = x ++ ' ' :: pyJoin ((z :: A'') ++ [w]) := by
        rfl
      rw [h1, ih w, if_neg (by simp)]
      show x ++ ' ' :: (pyJoin (z :: A'') ++ ' ' :: w) =
        (x ++ ' ' :: pyJoin (z :: A'')) ++ ' ' :: w
      simp

theorem pyJoin_reverse :
    ∀ toks : List (List Char),
      (pyJoin toks).reverse = pyJoin ((toks.map List.reverse).reverse) := by
  intro toks
  induction toks with
  | nil => rfl
  | cons t rest ih =>
    cases rest with
    | nil => simp [pyJoin]
    | cons t' r =>
      have h1 : pyJoin (t :: t' :: r) = t ++ ' ' :: pyJoin (t' :: r) := rfl
      rw [h1]
      have h2 : (t ++ ' ' :: pyJoin (t' :: r)).reverse =
          (pyJoin (t' :: r)).reverse ++ ' ' :: t.reverse := by
        simp
      rw [h2, ih]
      have h3 : ((t :: t' :: r).map List.reverse).reverse =
          ((t' :: r).map List.reverse).reverse ++ [t.reverse] := by
        simp
      rw [h3, pyJoin_append_single, if_neg (by simp)]

theorem pyStrip_pyJoin (toks : List (List Char))
    (h1 : ∀ t ∈ toks, t ≠ [])
    (h2 : ∀ t ∈ toks, ∀ c ∈ t, isSpaceChar c = false) :
    pyStrip (pyJoin toks) = pyJoin toks := by
  unfold pyStrip
  rw [dropWhile_pyJoin toks h1 h2, pyJoin_reverse toks]
  have h1' : ∀ t ∈ (toks.map List.reverse).reverse, t ≠ [] := by
    intro t ht
    rw [List.mem_reverse, List.mem_map] at ht
    rcases ht with ⟨t0, ht0, rfl⟩
    simpa using h1 t0 ht0
  have h2' : ∀ t ∈ (toks.map List.reverse).reverse, ∀ c ∈ t, isSpaceChar c = false := by
    intro t ht c hc
    rw [List.mem_reverse, List.mem_map] at ht
    rcases ht with ⟨t0, ht0, rfl⟩
    exact h2 t0 ht0 c (List.mem_reverse.mp hc)
  rw [dropWhile_pyJoin _ h1' h2', ← pyJoin_reverse toks, List.reverse_reverse]

theorem map_pyLower_fixed (s : List Char) (h : ∀ c ∈ s, pyLower c = c) :
    s.map pyLower = s := by
  induction s with
  | nil => rfl
  | cons c cs ih =>
    rw [List.map_cons, h c (List.mem_cons_self c cs),
      ih (fun x hx => h x (List.mem_cons_of_mem c hx))]

/-- The canonical form produced by one pass of `normalizeTitle` on a
punctuation-free input: the join of its non-article lower-case tokens. -/
theorem normalizeTitle_eq_pyJoin (s : List Char)
    (hs : ∀ c ∈ s, isWordOrSpace c = true) :
    normalizeTitle s = pyJoin (pySplit (removeArticles (s.map pyLower))) := by
  have hu : ∀ c ∈ s.map pyLower, isWordOrSpace c = true := by
    intro c hc
    rcases List.mem_map.mp hc with ⟨c0, hc0, rfl⟩
    simp only [isWordOrSpace, isWordChar_pyLower, isSpaceChar_pyLower]
    exact hs c0 hc0
  have hv : ∀ c ∈ removeArticles (s.map pyLower), isWordOrSpace c = true := by
    intro c hc
    rcases mem_removeArticlesGo (s.map pyLower) [] c hc with h | h
    · cases h
    · exact hu c h
  have hfil : (removeArticles (s.map pyLower)).filter isWordOrSpace =
      removeArticles (s.map pyLower) := List.filter_eq_self.mpr hv
  unfold normalizeTitle
  rw [hfil]
  apply pyStrip_pyJoin
  · exact pySplitGo_token_ne_nil _ []
  · intro t ht c hc
    rcases pySplitGo_token_mem _ [] t ht c hc with h | ⟨_, h2⟩
    · cases h
    · exact h2

theorem normalizeTitle_token_facts (s : List Char)
    (hs : ∀ c ∈ s, isWordOrSpace c = true) :
    (∀ t ∈ pySplit (removeArticles (s.map pyLower)), t ≠ []) ∧
    (∀ t ∈ pySplit (removeArticles (s.map pyLower)), ∀ c ∈ t, isWordChar c = true) ∧
    (∀ t ∈ pySplit (removeArticles (s.map pyLower)), isArticle t = false) ∧
    (∀ t ∈ pySplit (removeArticles (s.map pyLower)), ∀ c ∈ t, pyLower c = c) := by
  have hu : ∀ c ∈ s.map pyLower, isWordOrSpace c = true := by
    intro c hc
    rcases List.mem_map.mp hc with ⟨c0, hc0, rfl⟩
    simp only [isWordOrSpace, isWordChar_pyLower, isSpaceChar_pyLower]
    exact hs c0 hc0
  have hmem : ∀ t ∈ pySplit (removeArticles (s.map pyLower)), ∀ c ∈ t,
      c ∈ s.map pyLower ∧ isSpaceChar c = false := by
    intro t ht c hc
    rcases pySplitGo_token_mem _ [] t ht c hc with h | ⟨h1, h2⟩
    · cases h
    · rcases mem_removeArticlesGo _ [] c h1 with h' | h'
      · cases h'
      · exact ⟨h', h2⟩
  refine ⟨pySplitGo_token_ne_nil _ [], ?_, ?_, ?_⟩
  · intro t ht c hc
    rcases hmem t ht c hc with ⟨h1, h2⟩
    exact word_of_wordOrSpace_not_space c (hu c h1) h2
  · intro t ht
    rw [pySplit_removeArticles (s.map pyLower) hu] at ht
    have := List.of_mem_filter ht
    simpa using this
  · intro t ht c hc
    rcases hmem t ht c hc with ⟨h1, _⟩
    rcases List.mem_map.mp h1 with ⟨c0, _, rfl⟩
    exact pyLower_idem c0

/-- C2 (amended): `_normalize_title` is idempotent on every input free of
punctuation, i.e. consisting only of word characters (`\w`) and whitespace.
(It is not idempotent in general: see the counterexample.) -/
theorem normalizeTitle_idem_of_no_punct (s : List Char)
    (hs : ∀ c ∈ s, isWordOrSpace c = true) :
    normalizeTitle (normalizeTitle s) = normalizeTitle s := by
  obtain ⟨hne, hword, hnoart, hfix⟩ := normalizeTitle_token_facts s hs
  have hnsp : ∀ t ∈ pySplit (removeArticles (s.map pyLower)), ∀ c ∈ t,
      isSpaceChar c = false := fun t ht c hc => not_space_of_word c (hword t ht c hc)
  set toks := pySplit (removeArticles (s.map pyLower)) with htoks
  have hj : normalizeTitle s = pyJoin toks := normalizeTitle_eq_pyJoin s hs
  rw [hj]
  have hjchar : ∀ c ∈ pyJoin toks, pyLower c = c := by
    intro c hc
    rcases mem_pyJoin toks c hc with rfl | ⟨t, ht, hct⟩
    · decide
    · exact hfix t ht c hct
  have hmap : (pyJoin toks).map pyLower = pyJoin toks :=
    map_pyLower_fixed _ hjchar
  have hra : removeArticles (pyJoin toks) = pyJoin toks :=
    removeArticles_pyJoin toks hne hword hnoart
  have hjws : ∀ c ∈ pyJoin toks, isWordOrSpace c = true := by
    intro c hc
    rcases mem_pyJoin toks c hc with rfl | ⟨t, ht, hct⟩
    · decide
    · simp [isWordOrSpace, hword t ht c hct]
  have hfil : (pyJoin toks).filter isWordOrSpace = pyJoin toks :=
    List.filter_eq_self.mpr hjws
  have hsplit : pySplit (pyJoin toks) = toks := pySplit_pyJoin toks hne hnsp
  unfold normalizeTitle
  rw [hmap, hra, hfil, hsplit]
  exact pyStrip_pyJoin toks hne hnsp

/-! ### C1: the matching boundary pair -/

/-- C1 counterexample: for "the dark knight" vs "dark knight rises" with
threshold 0.8 the predicate returns true, not false as the claim states. -/
theorem c1_counterexample :
    matchMovieToAward "the dark knight".toList "dark knight rises".toList (8/10) ≠ false := by
  decide

/-- C1 (amended): for the pair "the dark knight" / "dark knight rises" the
predicate returns true at threshold 0.8 and at threshold 0.5 alike, because
normalization removes the article and leaves "dark knight", a substring of
"dark knight rises": the substring tier decides, the Jaccard similarity is
never consulted, and the normalized titles are not equal. -/
theorem c1_match_decided_by_substring :
    matchMovieToAward "the dark knight".toList "dark knight rises".toList (8/10) = true ∧
    matchMovieToAward "the dark knight".toList "dark knight rises".toList (1/2) = true ∧
    normalizeTitle "the dark knight".toList ≠ normalizeTitle "dark knight rises".toList ∧
    isSubstring (normalizeTitle "the dark knight".toList)
      (normalizeTitle "dark knight rises".toList) = true := by
  refine ⟨by decide, by decide, by decide, by decide⟩

/-! ### C2: idempotence of title normalization -/

/-- C2 counterexample: normalization is not idempotent on "t.he" — the
first pass strips the dot after the article pass, creating the word "the",
which only the second pass removes. -/
theorem c2_counterexample :
    normalizeTitle (normalizeTitle "t.he".toList) ≠ normalizeTitle "t.he".toList := by
  decide

/-- C2 witness: idempotence at the punctuation-free input "The Dark Knight". -/
theorem c2_witness :
    (∀ c ∈ "The Dark Knight".toList, isWordOrSpace c = true) ∧
    normalizeTitle (normalizeTitle "The Dark Knight".toList) =
      normalizeTitle "The Dark Knight".toList :=
  ⟨by decide, normalizeTitle_idem_of_no_punct "The Dark Knight".toList (by decide)⟩

/-! ### C3: the winner heuristic -/

theorem ite_or_bool (a b : Bool) : (if a then true else b) = (a || b) := by
  cases a <;> simp

/-- C3 counterexample: a row whose only markup is a first-cell background
in a color outside the highlight list is classified as a winner by the
code, while all four signals of the specification are false. -/
theorem c3_counterexample :
    isWinnerRow blueBackgroundRow = true ∧ winnerSpecSignals blueBackgroundRow = false := by
  constructor <;> decide

/-- C3 (amended): `_is_winner_row` returns true exactly when one of these
signals holds: bold/strong markup; a row-level background style with a
known highlight color; a trophy glyph or "winner" in the text; a first-cell
style containing "background" in any color; or a first-cell CSS class
containing "winner".  The known-color requirement applies only to the
row-level style, not to the first cell's. -/
theorem isWinnerRow_iff_codeSignals (r : Row) : isWinnerRow r = winnerCodeSignals r := by
  unfold isWinnerRow winnerCodeSignals styleHasHighlight
  cases h : r.cells.head? with
  | none =>
    simp only [h]
    rw [ite_or_bool, ite_or_bool, ite_or_bool]
    simp [Bool.or_assoc]
  | some fc =>
    simp only [h]
    rw [ite_or_bool, ite_or_bool, ite_or_bool, ite_or_bool]
    simp [Bool.or_assoc]

/-! ### C10: symmetry of the matcher -/

/-- C10: the matching predicate is symmetric in its two titles at every
threshold — each tier (equality, mutual substring, Jaccard) is symmetric. -/
theorem matchMovieToAward_symm (a b : List Char) (t : ℚ) :
    matchMovieToAward a b t = matchMovieToAward b a t := by
  simp only [matchMovieToAward]
  by_cases h1 : normalizeTitle a = normalizeTitle b
  · rw [if_pos h1, if_pos h1.symm]
  · rw [if_neg h1,
      if_neg (show ¬ normalizeTitle b = normalizeTitle a from fun h => h1 h.symm)]
    by_cases h2 : (isSubstring (normalizeTitle a) (normalizeTitle b) ||
        isSubstring (normalizeTitle b) (normalizeTitle a)) = true
    · rw [if_pos h2]
      rw [if_pos (show (isSubstring (normalizeTitle b) (normalizeTitle a) ||
          isSubstring (normalizeTitle a) (normalizeTitle b)) = true by
        rw [Bool.or_comm]; exact h2)]
    · rw [if_neg h2]
      rw [if_neg (show ¬ (isSubstring (normalizeTitle b) (normalizeTitle a) ||
          isSubstring (normalizeTitle a) (normalizeTitle b)) = true by
        rw [Bool.or_comm]; exact h2)]
      rw [Finset.inter_comm ((pySplit (normalizeTitle a)).toFinset),
        Finset.union_comm ((pySplit (normalizeTitle a)).toFinset)]

/-! ### C5: enrichment is a pure frame extension -/

theorem awardFrame_enrichOne (d : List (List Char × Movie)) (a : Award) :
    awardFrame (enrichOne d a) = awardFrame a := by
  unfold enrichOne
  split
  · rfl
  · split
    · rfl
    · split
      · rfl
      · split
        · rfl
        · rfl

/-- C5: enrichment returns exactly as many awards as it receives, in the
same order, and every output award agrees with its input award on every
field other than `movie_tmdb_id` and `movie_imdb_id`. -/
theorem enrichment_preserves_frame (awards : List Award) (movies : List Movie) :
    (enrichAwardsWithMovieData awards movies).length = awards.length ∧
    ∀ i : Nat, ((enrichAwardsWithMovieData awards movies)[i]?).map awardFrame =
      (awards[i]?).map awardFrame := by
  constructor
  · simp [enrichAwardsWithMovieData]
  · intro i
    unfold enrichAwardsWithMovieData
    rw [List.getElem?_map]
    cases awards[i]? with
    | none => rfl
    | some a => simp [awardFrame_enrichOne]

/-! ### C9: link-role assignment -/

theorem usableLink_iff_not_skip (l : Link) :
    usableLink l = !(decide (cleanText l.text = []) || startsWithHash l.href) := by
  unfold usableLink
  by_cases h : cleanText l.text = []
  · simp [h]
  · simp [h]

theorem usableTexts_cons_skip (l : Link) (ls : List Link) (h : usableLink l = false) :
    usableTexts (l :: ls) = usableTexts ls := by
  simp [usableTexts, List.filter_cons, h]

theorem usableTexts_cons_keep (l : Link) (ls : List Link) (h : usableLink l = true) :
    usableTexts (l :: ls) = cleanText l.text :: usableTexts ls := by
  simp [usableTexts, List.filter_cons, h]

theorem assignLinks_full (pc : Bool) (m p : List Char) :
    ∀ ls, assignLinks pc (some m) (some p) ls = (some m, some p) := by
  intro ls
  induction ls with
  | nil => rfl
  | cons l ls ih =>
    simp only [assignLinks]
    split
    · exact ih
    · exact ih

theorem assignLinks_nonperson (m : List Char) :
    ∀ ls, assignLinks false (some m) none ls = (some m, none) := by
  intro ls
  induction ls with
  | nil => rfl
  | cons l ls ih =>
    simp only [assignLinks]
    split
    · exact ih
    · exact ih

theorem assignLinks_person_second (m : List Char) :
    ∀ ls, assignLinks true (some m) none ls = (some m, (usableTexts ls).head?) := by
  intro ls
  induction ls with
  | nil => rfl
  | cons l ls ih =>
    by_cases h : (decide (cleanText l.text = []) || startsWithHash l.href) = true
    · have hu : usableLink l = false := by
        rw [usableLink_iff_not_skip, h]; rfl
      rw [usableTexts_cons_skip l ls hu]
      simp only [assignLinks]
      rw [if_pos h]
      exact ih
    · have hu : usableLink l = true := by
        rw [usableLink_iff_not_skip]
        simp only [Bool.not_eq_true] at h
        simp [h]
      rw [usableTexts_cons_keep l ls hu]
      simp only [assignLinks]
      rw [if_neg h]
      simp only [if_pos]
      exact assignLinks_full true m (cleanText l.text) ls

theorem assignLinks_start (pc : Bool) :
    ∀ ls, assignLinks pc none none ls =
      ((usableTexts ls).head?, if pc then (usableTexts ls)[1]? else none) := by
  intro ls
  induction ls with
  | nil => cases pc <;> rfl
  | cons l ls ih =>
    by_cases h : (decide (cleanText l.text = []) || startsWithHash l.href) = true
    · have hu : usableLink l = false := by
        rw [usableLink_iff_not_skip, h]; rfl
      rw [usableTexts_cons_skip l ls hu]
      simp only [assignLinks]
      rw [if_pos h]
      exact ih
    · have hu : usableLink l = true := by
        rw [usableLink_iff_not_skip]
        simp only [Bool.not_eq_true] at h
        simp [h]
      rw [usableTexts_cons_keep l ls hu]
      simp only [assignLinks]
      rw [if_neg h]
      cases pc with
      | true =>
        rw [assignLinks_person_second]
        simp [List.head?_eq_getElem?]
      | false =>
        rw [assignLinks_nonperson]
        simp

/-- C9: links with empty cleaned anchor text or a fragment target are
skipped; the first remaining link's text becomes the movie title; the
second remaining link's text becomes the person name exactly when the
category is person-centric, and otherwise no person name is set. -/
theorem link_role_assignment (links : List Link) (category : List Char) :
    extractTitlePerson (isPersonCategory category) links =
      ((usableTexts links).head?,
        if isPersonCategory category then (usableTexts links)[1]? else none) :=
  assignLinks_start (isPersonCategory category) links

/-! ### C4: entries whose links are all unusable -/

theorem extractTitlePerson_unusable (pc : Bool) (ls : List Link)
    (h : ∀ l ∈ ls, usableLink l = false) : extractTitlePerson pc ls = (none, none) := by
  have hu : usableTexts ls = [] := by
    unfold usableTexts
    have : ls.filter usableLink = [] := by
      rw [List.filter_eq_nil_iff]
      intro l hl
      simp [h l hl]
    rw [this]
    rfl
  rw [extractTitlePerson, assignLinks_start, hu]
  cases pc <;> rfl

/-- C4 (amended): a table row or list item with no hyperlinks at all yields
no record; but one whose hyperlinks are all unusable (empty anchor text or
fragment target) is not discarded — it is emitted as an `Award` with
neither movie title nor person name. -/
theorem unusable_links_emit_empty_award (cat : List Char) (y n : Int) :
    (∀ (row : Row) (fc : Cell), row.cells.head? = some fc → fc.links ≠ [] →
      (∀ l ∈ fc.links, usableLink l = false) →
      tableRowToAward cat y n row = some
        { award_name := "Academy Awards".toList, ceremony_year := some y,
          ceremony_number := some n, category := cat, movie_title := none,
          movie_tmdb_id := none, movie_imdb_id := none, person_name := none,
          person_role := none, won := isWinnerRow row, nominated := true,
          announcement_date := none, ceremony_date := none, notes := [] }) ∧
    (∀ item : Item, cleanText item.text ≠ [] → ¬ (cleanText item.text).length < 3 →
      item.links ≠ [] → (∀ l ∈ item.links, usableLink l = false) →
      listItemToAward cat y n item = some
        { award_name := "Academy Awards".toList, ceremony_year := some y,
          ceremony_number := some n, category := cat, movie_title := none,
          movie_tmdb_id := none, movie_imdb_id := none, person_name := none,
          person_role := none,
          won := item.hasBoldOrStrong ||
            isSubstring "(winner)".toList ((cleanText item.text).map pyLower),
          nominated := true, announcement_date := none, ceremony_date := none,
          notes := [] }) := by
  constructor
  · intro row fc hfc hne hall
    unfold tableRowToAward
    rw [hfc]
    simp only [if_neg hne]
    rw [extractTitlePerson_unusable (isPersonCategory cat) fc.links hall]
    rfl
  · intro item htext hlen hne hall
    unfold listItemToAward
    rw [if_neg (by simp [htext, hlen]), if_neg hne]
    rw [extractTitlePerson_unusable (isPersonCategory cat) item.links hall]
    rfl

/-- C4 witness: the amended statement at a concrete row and a concrete
list item whose links are all unusable. -/
theorem c4_witness :
    tableRowToAward "Best Picture".toList 2024 96 fragmentOnlyRow =
      some (mkAward "Best Picture".toList 2024 96 none none none
        (isWinnerRow fragmentOnlyRow)) ∧
    listItemToAward "Best Picture".toList 2024 96 fragmentItem =
      some (mkAward "Best Picture".toList 2024 96 none none none
        (fragmentItem.hasBoldOrStrong ||
          isSubstring "(winner)".toList ((cleanText fragmentItem.text).map pyLower))) :=
  ⟨(unusable_links_emit_empty_award "Best Picture".toList 2024 96).1
      fragmentOnlyRow ⟨[⟨"note".toList, "#cite1".toList⟩], [], []⟩ rfl
      (by decide) (by decide),
   (unusable_links_emit_empty_award "Best Picture".toList 2024 96).2
      fragmentItem (by decide) (by decide) (by decide) (by decide)⟩

/-- C4 counterexample: a data row whose single hyperlink is a fragment
reference still produces an `Award` record (with no movie title and no
person name) instead of being discarded. -/
theorem c4_counterexample :
    parseNomineesTable [headerRow, fragmentOnlyRow] "Best Picture".toList 2024 96 ≠ [] ∧
    ∀ a ∈ parseNomineesTable [headerRow, fragmentOnlyRow] "Best Picture".toList 2024 96,
      a.movie_title = none ∧ a.person_name = none := by
  constructor
  · decide
  · decide

/-! ### C6, C7: strategy chain and ceremony arithmetic -/

theorem tableRowToAward_shape (cat : List Char) (y n : Int) (row : Row) :
    tableRowToAward cat y n row = none ∨
    ∃ mt pn role w, tableRowToAward cat y n row = some (mkAward cat y n mt pn role w) := by
  unfold tableRowToAward
  split
  · exact Or.inl rfl
  · split
    · exact Or.inl rfl
    · exact Or.inr ⟨_, _, _, _, rfl⟩

theorem listItemToAward_shape (cat : List Char) (y n : Int) (item : Item) :
    listItemToAward cat y n item = none ∨
    ∃ mt pn role w, listItemToAward cat y n item = some (mkAward cat y n mt pn role w) := by
  simp only [listItemToAward]
  split
  · exact Or.inl rfl
  · split
    · exact Or.inl rfl
    · exact Or.inr ⟨_, _, _, _, rfl⟩

theorem tableRowToAward_fields (cat : List Char) (y n : Int) (row : Row) (a : Award)
    (h : tableRowToAward cat y n row = some a) :
    a.ceremony_year = some y ∧ a.ceremony_number = some n := by
  rcases tableRowToAward_shape cat y n row with h0 | ⟨mt, pn, role, w, h0⟩
  · rw [h0] at h; cases h
  · rw [h0] at h
    injection h with h
    subst h
    exact ⟨rfl, rfl⟩

theorem listItemToAward_fields (cat : List Char) (y n : Int) (item : Item) (a : Award)
    (h : listItemToAward cat y n item = some a) :
    a.ceremony_year = some y ∧ a.ceremony_number = some n := by
  rcases listItemToAward_shape cat y n item with h0 | ⟨mt, pn, role, w, h0⟩
  · rw [h0] at h; cases h
  · rw [h0] at h
    injection h with h
    subst h
    exact ⟨rfl, rfl⟩

theorem parseNomineesTable_fields (rows : List Row) (cat : List Char) (y n : Int)
    (a : Award) (h : a ∈ parseNomineesTable rows cat y n) :
    a.ceremony_year = some y ∧ a.ceremony_number = some n := by
  unfold parseNomineesTable at h
  rcases List.mem_filterMap.mp h with ⟨row, _, heq⟩
  exact tableRowToAward_fields cat y n row a heq

theorem parseListItems_fields (items : List Item) (cat : List Char) (y n : Int)
    (a : Award) (h : a ∈ parseListItems items cat y n) :
    a.ceremony_year = some y ∧ a.ceremony_number = some n := by
  unfold parseListItems at h
  rcases List.mem_filterMap.mp h with ⟨item, _, heq⟩
  exact listItemToAward_fields cat y n item a heq

theorem parseStandardTables_fields (tables : List TableRegion) (y n : Int)
    (a : Award) (h : a ∈ parseStandardTables tables y n) :
    a.ceremony_year = some y ∧ a.ceremony_number = some n := by
  unfold parseStandardTables at h
  rcases List.mem_flatMap.mp h with ⟨t, _, hmem⟩
  rcases hht : t.heading with _ | s
  · rw [hht] at hmem; cases hmem
  · rw [hht] at hmem
    simp only at hmem
    split at hmem
    · cases hmem
    · split at hmem
      · exact parseNomineesTable_fields _ _ _ _ a hmem
      · cases hmem

theorem parseBySections_fields (sections : List SectionRegion) (y n : Int)
    (a : Award) (h : a ∈ parseBySections sections y n) :
    a.ceremony_year = some y ∧ a.ceremony_number = some n := by
  unfold parseBySections at h
  rcases List.mem_flatMap.mp h with ⟨sec, _, hmem⟩
  rcases hhl : sec.headline with _ | s
  · rw [hhl] at hmem; cases hmem
  · rw [hhl] at hmem
    simp only at hmem
    split at hmem
    · rcases hct : sec.content with _ | c
      · rw [hct] at hmem; cases hmem
      · rw [hct] at hmem
        cases c with
        | table rows =>
          simp only at hmem
          exact parseNomineesTable_fields _ _ _ _ a hmem
        | list items =>
          simp only at hmem
          exact parseListItems_fields _ _ _ _ a hmem
    · cases hmem

theorem parseLists_fields (lists : List ListRegion) (y n : Int)
    (a : Award) (h : a ∈ parseLists lists y n) :
    a.ceremony_year = some y ∧ a.ceremony_number = some n := by
  unfold parseLists at h
  rcases List.mem_flatMap.mp h with ⟨l, _, hmem⟩
  rcases hht : l.heading with _ | s
  · rw [hht] at hmem; cases hmem
  · rw [hht] at hmem
    simp only at hmem
    split at hmem
    · exact parseListItems_fields _ _ _ _ a hmem
    · cases hmem

theorem scrapeYear_fields (page : Page) (year : Int) (a : Award)
    (h : a ∈ scrapeYear page year) :
    a.ceremony_year = some year ∧ a.ceremony_number = some (year - foundingYear + 1) := by
  simp only [scrapeYear] at h
  split at h
  · split at h
    · exact parseLists_fields _ _ _ a h
    · exact parseBySections_fields _ _ _ a h
  · exact parseStandardTables_fields _ _ _ a h

/-- C7: for every ceremony year, every award produced by `scrape_year`
carries that year and the ceremony number `year - 1929 + 1`, fixed at
construction; in particular 2024 yields ceremony number 96. -/
theorem ceremony_number_arithmetic :
    ((2024 : Int) - foundingYear + 1 = 96) ∧
    ∀ (page : Page) (year : Int), ∀ a ∈ scrapeYear page year,
      a.ceremony_year = some year ∧
      a.ceremony_number = some (year - foundingYear + 1) :=
  ⟨by decide, fun page year a h => scrapeYear_fields page year a h⟩

/-- C7 witness: the sample page for 2024 yields the Best Picture award
with ceremony number 96. -/
theorem c7_witness :
    bestPictureAward2024 ∈ scrapeYear samplePage 2024 ∧
    bestPictureAward2024.ceremony_year = some 2024 ∧
    bestPictureAward2024.ceremony_number = some (2024 - foundingYear + 1) :=
  ⟨by decide,
   (ceremony_number_arithmetic.2 samplePage 2024 bestPictureAward2024 (by decide)).1,
   (ceremony_number_arithmetic.2 samplePage 2024 bestPictureAward2024 (by decide)).2⟩

theorem parseStandardTables_eq_nil (tables : List TableRegion) (y n : Int)
    (h : ∀ t ∈ tables, ∀ s, t.heading = some s →
      cleanText s = [] ∨ isMajorCategory (cleanText s) = false) :
    parseStandardTables tables y n = [] := by
  unfold parseStandardTables
  rw [List.flatMap_eq_nil_iff]
  intro t ht
  rcases hht : t.heading with _ | s
  · simp only [hht]
  · simp only [hht]
    rcases h t ht s hht with hc | hc
    · rw [if_pos hc]
    · by_cases hc0 : cleanText s = []
      · rw [if_pos hc0]
      · rw [if_neg hc0, hc]
        simp

/-- C6: the strategies run in the strict order tables, sections, lists,
falling through only on an empty result; on a page with no qualifying
table and exactly one qualifying list under a major-category heading
(where the section pass finds either nothing or that same list), the table
strategy returns nothing and the final output is the list parse of that
list. -/
theorem fallback_chain_to_list_strategy (page : Page) (year : Int) (L : ListRegion)
    (s : List Char)
    (htab : ∀ t ∈ page.tables, ∀ u, t.heading = some u →
      cleanText u = [] ∨ isMajorCategory (cleanText u) = false)
    (hsec : parseBySections page.sections year (year - foundingYear + 1) = [] ∨
      parseBySections page.sections year (year - foundingYear + 1) =
        parseListItems L.items (cleanText s) year (year - foundingYear + 1))
    (hlists : page.lists = [L]) (hL : L.heading = some s)
    (hmaj : isMajorCategory (cleanText s) = true) :
    parseStandardTables page.tables year (year - foundingYear + 1) = [] ∧
    scrapeYear page year =
      parseListItems L.items (cleanText s) year (year - foundingYear + 1) := by
  have h1 : parseStandardTables page.tables year (year - foundingYear + 1) = [] :=
    parseStandardTables_eq_nil _ _ _ htab
  refine ⟨h1, ?_⟩
  have h3 : parseLists page.lists year (year - foundingYear + 1) =
      parseListItems L.items (cleanText s) year (year - foundingYear + 1) := by
    rw [hlists]
    unfold parseLists
    rw [List.flatMap_cons, List.flatMap_nil, List.append_nil, hL]
    simp only
    rw [if_pos hmaj]
  simp only [scrapeYear]
  rw [h1]
  simp only [List.isEmpty_nil, if_true]
  rcases hsec with hs | hs
  · rw [hs]
    simp only [List.isEmpty_nil, if_true]
    exact h3
  · rw [hs]
    by_cases he : parseListItems L.items (cleanText s) year (year - foundingYear + 1) = []
    · rw [he]
      simp only [List.isEmpty_nil, if_true]
      rw [h3, he]
    · rw [if_neg (by simpa [List.isEmpty_iff] using he)]

/-- C6 witness: the concrete list-only page falls through to the list
strategy. -/
theorem c6_witness :
    parseStandardTables listOnlyPage.tables 2024 (2024 - foundingYear + 1) = [] ∧
    scrapeYear listOnlyPage 2024 =
      parseListItems sampleList.items (cleanText "Best Picture".toList) 2024
        (2024 - foundingYear + 1) :=
  fallback_chain_to_list_strategy listOnlyPage 2024 sampleList "Best Picture".toList
    (by intro t ht u hu; cases ht)
    (Or.inl rfl) rfl rfl (by decide)

/-! ### C8: year carry-forward in the standalone scrapers -/

theorem updateYear_no_token (cur : Option (List Char)) (tht : Option (List Char))
    (h : ∀ t, tht = some t → hasFourDigitRun t = false) : updateYear cur tht = cur := by
  unfold updateYear
  rcases tht with _ | t
  · rfl
  · simp only [h t rfl]
    rfl

/-- C8: in both standalone scrapers' row folds, a row whose header cell
carries no four-consecutive-digit token leaves the carried year unchanged,
is not rejected on that account, and any record it emits carries the prior
year. -/
theorem year_carry_forward (idx : Nat) (cur : Option (List Char)) (cat : List Char)
    (brow : BPRow) (crow : CatRow)
    (hb : ∀ t, brow.thText = some t → hasFourDigitRun t = false)
    (hc : ∀ t, crow.thText = some t → hasFourDigitRun t = false) :
    ((bpProcessRow idx cur brow).1 = cur ∧
      ∀ r, (bpProcessRow idx cur brow).2 = some r → r.year = cur) ∧
    ((catProcessRow cat idx cur crow).1 = cur ∧
      ∀ r, (catProcessRow cat idx cur crow).2 = some r → r.year = cur) := by
  have hub := updateYear_no_token cur brow.thText hb
  have huc := updateYear_no_token cur crow.thText hc
  constructor
  · constructor
    · simp only [bpProcessRow, hub]
      split
      · rfl
      · split
        · rfl
        · split
          · rfl
          · split
            · rfl
            · rfl
    · intro r hr
      simp only [bpProcessRow, hub] at hr
      split at hr
      · exact Option.noConfusion hr
      · split at hr
        · exact Option.noConfusion hr
        · split at hr
          · exact Option.noConfusion hr
          · split at hr
            · exact Option.noConfusion hr
            · injection hr with hr
              subst hr
              rfl
  · constructor
    · simp only [catProcessRow, huc]
      split
      · rfl
      · split
        · rfl
        · split
          · rfl
          · split
            · rfl
            · rfl
    · intro r hr
      simp only [catProcessRow, huc] at hr
      split at hr
      · exact Option.noConfusion hr
      · split at hr
        · exact Option.noConfusion hr
        · split at hr
          · exact Option.noConfusion hr
          · split at hr
            · exact Option.noConfusion hr
            · injection hr with hr
              subst hr
              rfl

/-- C8 witness: concrete no-year-token rows keep the carried year and emit
records bearing it. -/
theorem c8_witness :
    (∀ t, noYearBPRow.thText = some t → hasFourDigitRun t = false) ∧
    (∀ t, noYearCatRow.thText = some t → hasFourDigitRun t = false) ∧
    (bpProcessRow 3 (some "1997".toList) noYearBPRow).1 = some "1997".toList ∧
    (∀ r, (bpProcessRow 3 (some "1997".toList) noYearBPRow).2 = some r →
      r.year = some "1997".toList) ∧
    (catProcessRow "Best Actor".toList 3 (some "1993".toList) noYearCatRow).1 =
      some "1993".toList := by
  have h := year_carry_forward 3 (some "1997".toList) "Best Actor".toList
    noYearBPRow noYearCatRow (by decide) (by decide)
  have h' := year_carry_forward 3 (some "1993".toList) "Best Actor".toList
    noYearBPRow noYearCatRow (by decide) (by decide)
  exact ⟨by decide, by decide, h.1.1, h.1.2, h'.2.1⟩

end PyAward
